import Mathlib

/-!
# PublisherKit: the combine-identifier generator

Shallow embedding of `Sources/CombineIdentifier/CombineIdentifier.cpp`:

```
namespace { std::atomic<uint64_t> new_combine_identifier; }
extern "C" uint64_t publisherkit_combine_identifier(void) {
    return new_combine_identifier.fetch_add(1);
}
```

A `uint64_t` is a natural number below `2 ^ 64`; arithmetic on it is written
with an explicit `% 2 ^ 64`.  The process state is passed explicitly: it is the
one global of the translation unit together with everything else the process
holds.  A call to `fetch_add` is one indivisible step of that state.
-/

namespace PublisherKit

/-- Semantics of `std::atomic<uint64_t>::fetch_add(arg)` on an object holding
`obj`: the first component is the value returned (the value held immediately
before the operation), the second the value held afterwards, computed in
unsigned 64-bit arithmetic. -/
def fetch_add (obj arg : Nat) : Nat × Nat :=
  (obj, (obj + arg) % 2 ^ 64)

/-- State of a process that links the translation unit: the anonymous-namespace
global `new_combine_identifier`, and `env`, standing for all other state of the
process. -/
structure Process (σ : Type) where
  new_combine_identifier : Nat
  env : σ
deriving DecidableEq

/-- A process state is well formed when the global holds a `uint64_t`. -/
def Process.WellFormed {σ : Type} (p : Process σ) : Prop :=
  p.new_combine_identifier < 2 ^ 64

instance {σ : Type} (p : Process σ) : Decidable p.WellFormed :=
  inferInstanceAs (Decidable (p.new_combine_identifier < 2 ^ 64))

/-- State at process start: `new_combine_identifier` has static storage
duration and no initialiser, so it is zero-initialised. -/
def Process.start {σ : Type} (e : σ) : Process σ :=
  { new_combine_identifier := 0, env := e }

/-- `uint64_t publisherkit_combine_identifier(void)`: returns
`new_combine_identifier.fetch_add(1)`.  The result pairs the returned value with
the process state after the call. -/
def publisherkit_combine_identifier {σ : Type} (p : Process σ) : Nat × Process σ :=
  let r := fetch_add p.new_combine_identifier 1
  (r.1, { p with new_combine_identifier := r.2 })

/-- Run `n` successive calls of `publisherkit_combine_identifier` from `p`: the
values returned, in call order, and the state after the last call. -/
def calls {σ : Type} : Nat → Process σ → List Nat × Process σ
  | 0, p => ([], p)
  | n + 1, p =>
    let r := publisherkit_combine_identifier p
    let rest := calls n r.2
    (r.1 :: rest.1, rest.2)

/-- Value returned by call number `n` (counting from 0) of a run that starts in
state `p`: `n` calls are made first, then the call whose result is reported. -/
def nthCall {σ : Type} (n : Nat) (p : Process σ) : Nat :=
  (publisherkit_combine_identifier (calls n p).2).1

/-- Run an interleaving of threads: `sched` lists, in the order in which the
atomic steps take effect, the thread performing each call.  The result records
for each step the calling thread and the value it received, with the final
state. -/
def runSchedule {σ : Type} {N : Nat} : List (Fin N) → Process σ → List (Fin N × Nat) × Process σ
  | [], p => ([], p)
  | t :: ts, p =>
    let r := publisherkit_combine_identifier p
    let rest := runSchedule ts r.2
    ((t, r.1) :: rest.1, rest.2)

/-- Values received by thread `t` in a trace, in the order it received them. -/
def threadResults {N : Nat} (t : Fin N) (trace : List (Fin N × Nat)) : List Nat :=
  (trace.filter (fun e => e.1 = t)).map Prod.snd

/-- All values collected from the `N` threads after a run: the results of
thread 0, then those of thread 1, and so on. -/
def collected {N : Nat} (trace : List (Fin N × Nat)) : List Nat :=
  (List.finRange N).flatMap (fun t => threadResults t trace)

/-! ## The function body as a statement

To speak about how a call can end, the body of the function is also given as a
statement of a small fragment of C++, with an interpreter under which a
statement may return a value, throw, or keep looping until the fuel is spent.
-/

/-- Expressions of the fragment.  The only object they can touch is the global
`new_combine_identifier`: `lit n` is an integer literal, `load` reads the
global, `fetch_add a` is `new_combine_identifier.fetch_add(a)`. -/
inductive Expr where
  | lit (n : Nat)
  | load
  | fetch_add (arg : Expr)
deriving DecidableEq

/-- Statements of the fragment: `return e;`, `throw`, an expression statement,
sequencing, `if (c) s else t` and `while (c) body`. -/
inductive Stmt where
  | return_ (e : Expr)
  | throw_
  | expr_ (e : Expr)
  | seq_ (s t : Stmt)
  | if_ (c : Expr) (s t : Stmt)
  | while_ (c : Expr) (body : Stmt)
deriving DecidableEq

/-- How the execution of a statement can end: control falls through to the
next statement, the function returns a value, an exception leaves the function,
or the fuel ran out before the statement finished. -/
inductive Outcome (σ : Type) where
  | fallthrough (s : Process σ)
  | returned (v : Nat) (s : Process σ)
  | thrown (s : Process σ)
  | outOfFuel
deriving DecidableEq

/-- Value of an expression and the state after evaluating it.  A literal is
converted to `uint64_t`; `fetch_add` evaluates its argument and then performs
the atomic read-modify-write on the global. -/
def evalExpr {σ : Type} : Expr → Process σ → Nat × Process σ
  | Expr.lit n, p => (n % 2 ^ 64, p)
  | Expr.load, p => (p.new_combine_identifier, p)
  | Expr.fetch_add a, p =>
    let x := evalExpr a p
    let r := fetch_add x.2.new_combine_identifier x.1
    (r.1, { x.2 with new_combine_identifier := r.2 })

/-- Execute a statement with a bound on the number of nested steps.  Each
statement uses one unit of fuel, each further iteration of a loop one more. -/
def exec {σ : Type} : Nat → Stmt → Process σ → Outcome σ
  | 0, _, _ => Outcome.outOfFuel
  | _ + 1, Stmt.return_ e, p =>
    let r := evalExpr e p
    Outcome.returned r.1 r.2
  | _ + 1, Stmt.throw_, p => Outcome.thrown p
  | _ + 1, Stmt.expr_ e, p => Outcome.fallthrough (evalExpr e p).2
  | fuel + 1, Stmt.seq_ s t, p =>
    match exec fuel s p with
    | Outcome.fallthrough q => exec fuel t q
    | o => o
  | fuel + 1, Stmt.if_ c s t, p =>
    let r := evalExpr c p
    if r.1 = 0 then exec fuel t r.2 else exec fuel s r.2
  | fuel + 1, Stmt.while_ c body, p =>
    let r := evalExpr c p
    if r.1 = 0 then Outcome.fallthrough r.2
    else
      match exec fuel body r.2 with
      | Outcome.fallthrough q => exec fuel (Stmt.while_ c body) q
      | o => o

/-- Whether a statement contains a `throw`. -/
def Stmt.hasThrow : Stmt → Bool
  | Stmt.return_ _ => false
  | Stmt.throw_ => true
  | Stmt.expr_ _ => false
  | Stmt.seq_ s t => s.hasThrow || t.hasThrow
  | Stmt.if_ _ s t => s.hasThrow || t.hasThrow
  | Stmt.while_ _ body => body.hasThrow

/-- Whether a statement contains a conditional branch. -/
def Stmt.hasBranch : Stmt → Bool
  | Stmt.return_ _ => false
  | Stmt.throw_ => false
  | Stmt.expr_ _ => false
  | Stmt.seq_ s t => s.hasBranch || t.hasBranch
  | Stmt.if_ _ _ _ => true
  | Stmt.while_ _ body => body.hasBranch

/-- Whether a statement contains a loop. -/
def Stmt.hasLoop : Stmt → Bool
  | Stmt.return_ _ => false
  | Stmt.throw_ => false
  | Stmt.expr_ _ => false
  | Stmt.seq_ s t => s.hasLoop || t.hasLoop
  | Stmt.if_ _ s t => s.hasLoop || t.hasLoop
  | Stmt.while_ _ _ => true

/-- Body of `publisherkit_combine_identifier`:
`return new_combine_identifier.fetch_add(1);`. -/
def publisherkit_combine_identifier_body : Stmt :=
  Stmt.return_ (Expr.fetch_add (Expr.lit 1))

/-! ## Basic facts about one call and about runs -/

section Lemmas

variable {σ : Type}

theorem call_fst (p : Process σ) :
    (publisherkit_combine_identifier p).1 = p.new_combine_identifier := rfl

theorem call_snd_counter (p : Process σ) :
    (publisherkit_combine_identifier p).2.new_combine_identifier
      = (p.new_combine_identifier + 1) % 2 ^ 64 := rfl

theorem call_snd_env (p : Process σ) :
    (publisherkit_combine_identifier p).2.env = p.env := rfl

theorem calls_counter (n : Nat) (p : Process σ) (hp : p.WellFormed) :
    (calls n p).2.new_combine_identifier = (p.new_combine_identifier + n) % 2 ^ 64 := by
  induction n generalizing p with
  | zero =>
    simp only [calls, Nat.add_zero]
    exact (Nat.mod_eq_of_lt hp).symm
  | succ n ih =>
    have hq : (publisherkit_combine_identifier p).2.WellFormed :=
      Nat.mod_lt _ (by decide)
    simp only [calls]
    rw [ih _ hq, call_snd_counter]
    omega

theorem calls_env (n : Nat) (p : Process σ) : (calls n p).2.env = p.env := by
  induction n generalizing p with
  | zero => rfl
  | succ n ih =>
    simp only [calls]
    rw [ih, call_snd_env]

theorem calls_wellFormed (n : Nat) (p : Process σ) (hp : p.WellFormed) :
    (calls n p).2.WellFormed := by
  unfold Process.WellFormed
  rw [calls_counter n p hp]
  exact Nat.mod_lt _ (by decide)

theorem nthCall_eq (n : Nat) (p : Process σ) (hp : p.WellFormed) :
    nthCall n p = (p.new_combine_identifier + n) % 2 ^ 64 := by
  unfold nthCall
  rw [call_fst, calls_counter n p hp]

theorem calls_values (n : Nat) (p : Process σ) (hp : p.WellFormed) :
    (calls n p).1
      = (List.range n).map (fun i => (p.new_combine_identifier + i) % 2 ^ 64) := by
  induction n generalizing p with
  | zero => rfl
  | succ n ih =>
    have hq : (publisherkit_combine_identifier p).2.WellFormed :=
      Nat.mod_lt _ (by decide)
    simp only [calls]
    rw [ih _ hq, List.range_succ_eq_map, List.map_cons, List.map_map, call_fst,
      call_snd_counter]
    congr 1
    · exact (Nat.mod_eq_of_lt hp).symm
    · apply List.map_congr_left
      intro i _
      simp only [Function.comp]
      omega

theorem calls_getElem? (n i : Nat) (hi : i < n) (p : Process σ) (hp : p.WellFormed) :
    (calls n p).1[i]? = some (nthCall i p) := by
  rw [calls_values n p hp, nthCall_eq i p hp, List.getElem?_map, List.getElem?_range hi]
  rfl

theorem calls_length (n : Nat) (p : Process σ) : (calls n p).1.length = n := by
  induction n generalizing p with
  | zero => rfl
  | succ n ih => simp only [calls, List.length_cons, ih]

theorem start_wellFormed (e : σ) : (Process.start e).WellFormed := by
  show (0 : Nat) < 2 ^ 64
  decide

theorem offset_mod_injOn (c i j : Nat) (hi : i < 2 ^ 64) (hj : j < 2 ^ 64)
    (h : (c + i) % 2 ^ 64 = (c + j) % 2 ^ 64) : i = j := by
  omega

/-! ### Outcomes of statements -/

theorem exec_throw (fuel : Nat) (p : Process σ) :
    exec (fuel + 1) Stmt.throw_ p = Outcome.thrown p := rfl

theorem exec_return_after_throw (fuel : Nat) (e : Expr) (p : Process σ) :
    exec (fuel + 2) (Stmt.seq_ Stmt.throw_ (Stmt.return_ e)) p = Outcome.thrown p := rfl

theorem exec_spin (fuel : Nat) (p : Process σ) :
    exec fuel (Stmt.while_ (Expr.lit 1) (Stmt.expr_ Expr.load)) p = Outcome.outOfFuel := by
  induction fuel with
  | zero => rfl
  | succ n ih =>
    cases n with
    | zero => rfl
    | succ m =>
      have h : exec (m + 1 + 1) (Stmt.while_ (Expr.lit 1) (Stmt.expr_ Expr.load)) p
          = exec (m + 1) (Stmt.while_ (Expr.lit 1) (Stmt.expr_ Expr.load)) p := rfl
      rw [h, ih]

/-! ### Interleaved runs -/

theorem runSchedule_threads {N : Nat} (sched : List (Fin N)) (p : Process σ) :
    (runSchedule sched p).1.map Prod.fst = sched := by
  induction sched generalizing p with
  | nil => rfl
  | cons t ts ih => simp only [runSchedule, List.map_cons, ih]

theorem runSchedule_values {N : Nat} (sched : List (Fin N)) (p : Process σ) :
    (runSchedule sched p).1.map Prod.snd = (calls sched.length p).1 := by
  induction sched generalizing p with
  | nil => rfl
  | cons t ts ih => simp only [runSchedule, List.map_cons, List.length_cons, calls, ih]

theorem runSchedule_final {N : Nat} (sched : List (Fin N)) (p : Process σ) :
    (runSchedule sched p).2 = (calls sched.length p).2 := by
  induction sched generalizing p with
  | nil => rfl
  | cons t ts ih => simp only [runSchedule, List.length_cons, calls, ih]

theorem threadResults_cons {N : Nat} (t t0 : Fin N) (v : Nat) (tr : List (Fin N × Nat)) :
    threadResults t ((t0, v) :: tr)
      = (if t0 = t then [v] else []) ++ threadResults t tr := by
  unfold threadResults
  by_cases h : t0 = t <;> simp [List.filter_cons, h]

theorem threadResults_length {N : Nat} (t : Fin N) (tr : List (Fin N × Nat)) :
    (threadResults t tr).length = (tr.map Prod.fst).count t := by
  induction tr with
  | nil => rfl
  | cons e tr ih =>
    obtain ⟨t0, v⟩ := e
    rw [threadResults_cons, List.length_append, ih, List.map_cons, List.count_cons]
    by_cases h : t0 = t <;> simp [h, Nat.add_comm]

theorem flatMap_ite_nil {α β : Type} [DecidableEq α] (a : α) (b : β) (l : List α)
    (h : a ∉ l) : l.flatMap (fun t => if a = t then [b] else []) = [] := by
  induction l with
  | nil => rfl
  | cons x xs ih =>
    rw [List.mem_cons, not_or] at h
    rw [List.flatMap_cons, ih h.2, if_neg h.1]
    rfl

theorem flatMap_ite_singleton {α β : Type} [DecidableEq α] (a : α) (b : β) (l : List α)
    (hl : l.Nodup) (h : a ∈ l) : l.flatMap (fun t => if a = t then [b] else []) = [b] := by
  induction l with
  | nil => cases h
  | cons x xs ih =>
    rw [List.nodup_cons] at hl
    rw [List.flatMap_cons]
    by_cases hx : a = x
    · subst hx
      rw [if_pos rfl, flatMap_ite_nil a b xs hl.1]
      rfl
    · rw [if_neg hx, ih hl.2 ((List.mem_cons.mp h).resolve_left hx)]
      rfl

theorem collected_cons {N : Nat} (t0 : Fin N) (v : Nat) (tr : List (Fin N × Nat)) :
    (collected ((t0, v) :: tr)).Perm (v :: collected tr) := by
  unfold collected
  have h1 : (fun t => threadResults t ((t0, v) :: tr))
      = (fun t => (if t0 = t then [v] else []) ++ threadResults t tr) :=
    funext (fun t => threadResults_cons t t0 v tr)
  rw [h1]
  refine (List.flatMap_append_perm _ _ _).symm.trans ?_
  rw [flatMap_ite_singleton t0 v _ (List.nodup_finRange N) (List.mem_finRange t0)]
  exact List.Perm.refl _

theorem collected_perm {N : Nat} (tr : List (Fin N × Nat)) :
    (collected tr).Perm (tr.map Prod.snd) := by
  induction tr with
  | nil =>
    unfold collected threadResults
    simp
  | cons e tr ih =>
    obtain ⟨t0, v⟩ := e
    exact (collected_cons t0 v tr).trans (ih.cons v)

theorem schedule_length {N : Nat} (sched : List (Fin N)) (M : Nat)
    (hs : ∀ t : Fin N, sched.count t = M) : sched.length = N * M := by
  have h : ∑ a : Fin N, (sched : Multiset (Fin N)).count a = Multiset.card (sched : Multiset (Fin N)) :=
    Multiset.sum_count_eq_card (fun a _ => Finset.mem_univ a)
  simp only [Multiset.coe_count, Multiset.coe_card, hs, Finset.sum_const, Finset.card_univ,
    Fintype.card_fin, smul_eq_mul] at h
  exact h.symm

theorem offsets_nodup (c k : Nat) (hk : k ≤ 2 ^ 64) :
    ((List.range k).map (fun i => (c + i) % 2 ^ 64)).Nodup := by
  refine List.Nodup.map_on ?_ (List.nodup_range k)
  intro i hi j hj h
  rw [List.mem_range] at hi hj
  exact offset_mod_injOn c i j (by omega) (by omega) h

theorem offsets_eq_range' (c k : Nat) (hk : c + k ≤ 2 ^ 64) :
    (List.range k).map (fun i => (c + i) % 2 ^ 64) = List.range' c k := by
  rw [List.range'_eq_map_range]
  apply List.map_congr_left
  intro i hi
  rw [List.mem_range] at hi
  exact Nat.mod_eq_of_lt (by omega)

/-- What a run of `sched` from `p` hands out, whichever thread gets which value:
every thread receives as many values as it makes calls, and the values
collected from all threads are a rearrangement of `(c + i) mod 2 ^ 64` for
`i` below the number of calls, where `c` is the counter before the run. -/
theorem runSchedule_collected {N : Nat} (sched : List (Fin N)) (p : Process σ)
    (hp : p.WellFormed) :
    (∀ t : Fin N, (threadResults t (runSchedule sched p).1).length = sched.count t)
    ∧ (collected (runSchedule sched p).1).Perm
        ((List.range sched.length).map (fun i => (p.new_combine_identifier + i) % 2 ^ 64)) := by
  constructor
  · intro t
    rw [threadResults_length, runSchedule_threads]
  · have h := collected_perm (runSchedule sched p).1
    rw [runSchedule_values, calls_values _ p hp] at h
    exact h

end Lemmas

/-! ## The claims -/

/-- C1: from every counter state other than `2 ^ 64 - 1`, two calls made one
after the other return `v1` and then `v2` with `v2 = v1 + 1` as natural
numbers. -/
theorem sequential_calls_differ_by_one {σ : Type} (p : Process σ) (hp : p.WellFormed)
    (hmax : p.new_combine_identifier ≠ 2 ^ 64 - 1) :
    (publisherkit_combine_identifier (publisherkit_combine_identifier p).2).1
      = (publisherkit_combine_identifier p).1 + 1 := by
  rw [call_fst, call_fst, call_snd_counter]
  unfold Process.WellFormed at hp
  omega

theorem sequential_calls_differ_by_one_witness :
    (Process.mk 41 ()).WellFormed ∧ (Process.mk 41 ()).new_combine_identifier ≠ 2 ^ 64 - 1
    ∧ (publisherkit_combine_identifier (publisherkit_combine_identifier (Process.mk 41 ())).2).1
      = (publisherkit_combine_identifier (Process.mk 41 ())).1 + 1 :=
  ⟨by decide, by decide,
    sequential_calls_differ_by_one (Process.mk 41 ()) (by decide) (by decide)⟩

/-- C2: the counter starts at 0; in a fresh process three calls in a row return
0, 1, 2 in that order; and for every `n < 2 ^ 64` call number `n` (counting from
0) returns `n`. -/
theorem fresh_process_returns_call_index {σ : Type} (e : σ) :
    (Process.start e).new_combine_identifier = 0
    ∧ (calls 3 (Process.start e)).1 = [0, 1, 2]
    ∧ ∀ n : Nat, n < 2 ^ 64 → nthCall n (Process.start e) = n := by
  refine ⟨rfl, rfl, ?_⟩
  intro n hn
  rw [nthCall_eq n _ (start_wellFormed e)]
  simp only [Process.start, Nat.zero_add]
  exact Nat.mod_eq_of_lt hn

theorem fresh_process_returns_call_index_witness :
    5 < 2 ^ 64 ∧ nthCall 5 (Process.start ()) = 5 :=
  ⟨by decide, (fresh_process_returns_call_index ()).2.2 5 (by decide)⟩

/-- C3: if call number `i` takes effect before call number `j` (`i < j`) and the
counter does not wrap between them (`c + j < 2 ^ 64` for the starting counter
`c`), the earlier call returns a strictly smaller value than the later one. -/
theorem earlier_call_returns_smaller {σ : Type} (p : Process σ) (i j : Nat)
    (hij : i < j) (hj : p.new_combine_identifier + j < 2 ^ 64) :
    nthCall i p < nthCall j p := by
  have hp : p.WellFormed := by
    unfold Process.WellFormed
    omega
  rw [nthCall_eq i p hp, nthCall_eq j p hp]
  omega

theorem earlier_call_returns_smaller_witness :
    2 < 7 ∧ (Process.mk 100 ()).new_combine_identifier + 7 < 2 ^ 64
    ∧ nthCall 2 (Process.mk 100 ()) < nthCall 7 (Process.mk 100 ()) :=
  ⟨by decide, by decide,
    earlier_call_returns_smaller (Process.mk 100 ()) 2 7 (by decide) (by decide)⟩

/-- C4: from every counter state, the values returned by a run of at most
`2 ^ 64` successive calls are pairwise distinct. -/
theorem successive_calls_nodup {σ : Type} (p : Process σ) (hp : p.WellFormed)
    (k : Nat) (hk : k ≤ 2 ^ 64) : (calls k p).1.Nodup := by
  rw [calls_values k p hp]
  refine List.Nodup.map_on ?_ (List.nodup_range k)
  intro i hi j hj h
  rw [List.mem_range] at hi hj
  exact offset_mod_injOn p.new_combine_identifier i j (by omega) (by omega) h

theorem successive_calls_nodup_witness :
    (Process.mk (2 ^ 64 - 2) ()).WellFormed ∧ 4 ≤ 2 ^ 64
    ∧ (calls 4 (Process.mk (2 ^ 64 - 2) ())).1.Nodup :=
  ⟨by decide, by decide,
    successive_calls_nodup (Process.mk (2 ^ 64 - 2) ()) (by decide) 4 (by decide)⟩

/-- C5: with the counter at `2 ^ 64 - 1` a call returns `2 ^ 64 - 1` and the
call after it returns 0; in a fresh process the call made after exactly `2 ^ 64`
earlier calls returns 0 again.  Every one of these calls returns a value: the
function has no error result. -/
theorem wraparound_returns_zero {σ : Type} (e : σ) :
    (publisherkit_combine_identifier (Process.mk (2 ^ 64 - 1) e)).1 = 2 ^ 64 - 1
    ∧ (publisherkit_combine_identifier
        (publisherkit_combine_identifier (Process.mk (2 ^ 64 - 1) e)).2).1 = 0
    ∧ nthCall (2 ^ 64) (Process.start e) = 0 := by
  refine ⟨rfl, ?_, ?_⟩
  · rw [call_fst, call_snd_counter]
    show (2 ^ 64 - 1 + 1) % 2 ^ 64 = 0
    decide
  · rw [nthCall_eq _ _ (start_wellFormed e)]
    show (0 + 2 ^ 64) % 2 ^ 64 = 0
    decide

/-- C6, the claim as stated fails: two threads make one call each while the
counter holds `2 ^ 64 - 1`.  The values handed out are `2 ^ 64 - 1` and `0`, so
sorted they are `[0, 2 ^ 64 - 1]`, not the range `2 ^ 64 - 1, 2 ^ 64`. -/
theorem concurrent_range_counterexample :
    2 * 1 ≤ 2 ^ 64
    ∧ (Process.mk (2 ^ 64 - 1) ()).WellFormed
    ∧ (∀ t : Fin 2, ([0, 1] : List (Fin 2)).count t = 1)
    ∧ (collected (runSchedule ([0, 1] : List (Fin 2)) (Process.mk (2 ^ 64 - 1) ())).1).insertionSort
        (fun a b => a ≤ b) = [0, 2 ^ 64 - 1]
    ∧ (collected (runSchedule ([0, 1] : List (Fin 2)) (Process.mk (2 ^ 64 - 1) ())).1).insertionSort
        (fun a b => a ≤ b) ≠ List.range' (2 ^ 64 - 1) (2 * 1) := by
  refine ⟨by decide, by decide, by decide, by decide, by decide⟩

/-- C6 (amended): for every `N` and `M` with `N * M ≤ 2 ^ 64` and every
interleaving of `N` threads that each make `M` calls, each call one atomic step
on the shared counter, every thread receives `M` values, the `N * M` values
collected are pairwise distinct and are a rearrangement of `(c + i) mod 2 ^ 64`
for `i < N * M`, where `c` is the counter before the run; when the run does not
cross the wraparound (`c + N * M ≤ 2 ^ 64`) they are, sorted, the contiguous
range `c, c + 1, ..., c + N * M - 1`.  In particular 1000 threads that each call
once in a fresh process receive, without repetition, exactly the values
`0, 1, ..., 999`. -/
theorem concurrent_calls_distinct {σ : Type} :
    (∀ (N M : Nat) (p : Process σ) (sched : List (Fin N)),
      N * M ≤ 2 ^ 64 → p.WellFormed → (∀ t : Fin N, sched.count t = M) →
        (∀ t : Fin N, (threadResults t (runSchedule sched p).1).length = M)
        ∧ (collected (runSchedule sched p).1).length = N * M
        ∧ (collected (runSchedule sched p).1).Nodup
        ∧ (collected (runSchedule sched p).1).Perm
            ((List.range (N * M)).map (fun i => (p.new_combine_identifier + i) % 2 ^ 64))
        ∧ (p.new_combine_identifier + N * M ≤ 2 ^ 64 →
            (collected (runSchedule sched p).1).insertionSort (fun a b => a ≤ b)
              = List.range' p.new_combine_identifier (N * M)))
    ∧ (∀ (e : σ) (sched : List (Fin 1000)), (∀ t : Fin 1000, sched.count t = 1) →
        (collected (runSchedule sched (Process.start e)).1).Nodup
        ∧ ∀ v : Nat, v ∈ collected (runSchedule sched (Process.start e)).1 ↔ v < 1000) := by
  have general : ∀ (N M : Nat) (p : Process σ) (sched : List (Fin N)),
      N * M ≤ 2 ^ 64 → p.WellFormed → (∀ t : Fin N, sched.count t = M) →
        (∀ t : Fin N, (threadResults t (runSchedule sched p).1).length = M)
        ∧ (collected (runSchedule sched p).1).length = N * M
        ∧ (collected (runSchedule sched p).1).Nodup
        ∧ (collected (runSchedule sched p).1).Perm
            ((List.range (N * M)).map (fun i => (p.new_combine_identifier + i) % 2 ^ 64))
        ∧ (p.new_combine_identifier + N * M ≤ 2 ^ 64 →
            (collected (runSchedule sched p).1).insertionSort (fun a b => a ≤ b)
              = List.range' p.new_combine_identifier (N * M)) := by
    intro N M p sched hNM hp hs
    obtain ⟨hlen, hperm⟩ := runSchedule_collected sched p hp
    rw [schedule_length sched M hs] at hperm
    refine ⟨fun t => (hlen t).trans (hs t), ?_, ?_, hperm, ?_⟩
    · rw [hperm.length_eq, List.length_map, List.length_range]
    · exact hperm.nodup_iff.mpr (offsets_nodup _ _ hNM)
    · intro hc
      rw [offsets_eq_range' _ _ hc] at hperm
      have hsorted : (List.range' p.new_combine_identifier (N * M)).Sorted (fun a b => a ≤ b) :=
        (List.pairwise_lt_range' p.new_combine_identifier (N * M)).imp Nat.le_of_lt
      exact List.eq_of_perm_of_sorted ((List.perm_insertionSort _ _).trans hperm)
        (List.sorted_insertionSort _ _) hsorted
  refine ⟨general, ?_⟩
  intro e sched hs
  obtain ⟨_, _, hnodup, hperm, _⟩ :=
    general 1000 1 (Process.start e) sched (by decide) (start_wellFormed e) hs
  refine ⟨hnodup, fun v => ?_⟩
  rw [hperm.mem_iff, offsets_eq_range' _ _ (by show 0 + 1000 * 1 ≤ 2 ^ 64; decide), List.mem_range']
  show (∃ i, i < 1000 * 1 ∧ v = 0 + 1 * i) ↔ v < 1000
  constructor
  · rintro ⟨i, hi, rfl⟩
    omega
  · intro hv
    exact ⟨v, by omega, by omega⟩

theorem concurrent_calls_distinct_witness :
    2 * 2 ≤ 2 ^ 64
    ∧ (Process.mk 10 ()).WellFormed
    ∧ (∀ t : Fin 2, ([0, 1, 1, 0] : List (Fin 2)).count t = 2)
    ∧ (Process.mk 10 ()).new_combine_identifier + 2 * 2 ≤ 2 ^ 64
    ∧ (collected (runSchedule ([0, 1, 1, 0] : List (Fin 2)) (Process.mk 10 ())).1).Nodup
    ∧ (collected (runSchedule ([0, 1, 1, 0] : List (Fin 2)) (Process.mk 10 ())).1).insertionSort
        (fun a b => a ≤ b) = List.range' (Process.mk 10 ()).new_combine_identifier (2 * 2) :=
  ⟨by decide, by decide, by decide, by decide,
    ((@concurrent_calls_distinct Unit).1 2 2 (Process.mk 10 ()) [0, 1, 1, 0]
      (by decide) (by decide) (by decide)).2.2.1,
    ((@concurrent_calls_distinct Unit).1 2 2 (Process.mk 10 ()) [0, 1, 1, 0]
      (by decide) (by decide) (by decide)).2.2.2.2 (by decide)⟩

/-- C7: the call is total and cannot fail.  The body is the single statement
`return new_combine_identifier.fetch_add(1);`, with no `throw`, no conditional
branch and no loop.  From every counter state, with no other input and no
precondition, executing it with any positive amount of fuel ends by returning:
it never throws, never falls off the end and never runs out of fuel.  The value
returned is the counter held before the call, a 64-bit unsigned integer, and the
successor state holds `(c + 1) mod 2 ^ 64`, again a 64-bit unsigned integer, with
the rest of the state unchanged; these are the value and state of
`publisherkit_combine_identifier`. -/
theorem call_total {σ : Type} (p : Process σ) (hp : p.WellFormed) (fuel : Nat)
    (hfuel : 0 < fuel) :
    exec fuel publisherkit_combine_identifier_body p
        = Outcome.returned p.new_combine_identifier
            { p with new_combine_identifier := (p.new_combine_identifier + 1) % 2 ^ 64 }
    ∧ publisherkit_combine_identifier p
        = (p.new_combine_identifier,
            { p with new_combine_identifier := (p.new_combine_identifier + 1) % 2 ^ 64 })
    ∧ (∃ (v : Nat) (q : Process σ),
        publisherkit_combine_identifier p = (v, q) ∧ v < 2 ^ 64 ∧ q.WellFormed)
    ∧ publisherkit_combine_identifier_body.hasThrow = false
    ∧ publisherkit_combine_identifier_body.hasBranch = false
    ∧ publisherkit_combine_identifier_body.hasLoop = false := by
  obtain ⟨f, rfl⟩ : ∃ f, fuel = f + 1 := ⟨fuel - 1, by omega⟩
  refine ⟨rfl, rfl, ?_, rfl, rfl, rfl⟩
  exact ⟨(publisherkit_combine_identifier p).1, (publisherkit_combine_identifier p).2, rfl,
    by rw [call_fst]; exact hp, Nat.mod_lt _ (by decide)⟩

theorem call_total_witness :
    (Process.mk (2 ^ 64 - 1) ()).WellFormed ∧ 0 < 1
    ∧ exec 1 publisherkit_combine_identifier_body (Process.mk (2 ^ 64 - 1) ())
        = Outcome.returned (2 ^ 64 - 1) (Process.mk 0 ())
    ∧ publisherkit_combine_identifier (Process.mk (2 ^ 64 - 1) ())
        = (2 ^ 64 - 1, Process.mk 0 ()) :=
  ⟨by decide, by decide,
    (call_total (Process.mk (2 ^ 64 - 1) ()) (by decide) 1 (by decide)).1,
    (call_total (Process.mk (2 ^ 64 - 1) ()) (by decide) 1 (by decide)).2.1⟩

/-- C8: in every counter state `c` one call returns the value `c` held before
the increment, not `c + 1`, and leaves the counter at `(c + 1) mod 2 ^ 64`. -/
theorem call_fetch_and_increment {σ : Type} (p : Process σ) :
    (publisherkit_combine_identifier p).1 = p.new_combine_identifier
    ∧ (publisherkit_combine_identifier p).1 ≠ p.new_combine_identifier + 1
    ∧ (publisherkit_combine_identifier p).2.new_combine_identifier
        = (p.new_combine_identifier + 1) % 2 ^ 64 :=
  ⟨rfl, by rw [call_fst]; exact Nat.ne_of_lt (Nat.lt_succ_self _), rfl⟩

/-- C9: a call changes only the counter: the rest of the process state is the
same after the call as before it, the state after the call is the state before
it with the counter replaced, and the returned value and the new counter are
the same in any two process states that agree on the counter. -/
theorem call_frame {σ : Type} (p : Process σ) :
    (publisherkit_combine_identifier p).2.env = p.env
    ∧ (publisherkit_combine_identifier p).2
        = { p with new_combine_identifier :=
              (publisherkit_combine_identifier p).2.new_combine_identifier }
    ∧ ∀ (τ : Type) (q : Process τ), q.new_combine_identifier = p.new_combine_identifier →
        (publisherkit_combine_identifier q).1 = (publisherkit_combine_identifier p).1
        ∧ (publisherkit_combine_identifier q).2.new_combine_identifier
            = (publisherkit_combine_identifier p).2.new_combine_identifier := by
  refine ⟨rfl, rfl, ?_⟩
  intro τ q h
  rw [call_fst, call_fst, call_snd_counter, call_snd_counter, h]
  exact ⟨rfl, rfl⟩

theorem call_frame_witness :
    (Process.mk 7 [1, 2, 3]).new_combine_identifier = (Process.mk 7 true).new_combine_identifier
    ∧ (publisherkit_combine_identifier (Process.mk 7 [1, 2, 3])).1
        = (publisherkit_combine_identifier (Process.mk 7 true)).1
    ∧ (publisherkit_combine_identifier (Process.mk 7 [1, 2, 3])).2.new_combine_identifier
        = (publisherkit_combine_identifier (Process.mk 7 true)).2.new_combine_identifier :=
  ⟨rfl, (call_frame (Process.mk 7 true)).2.2 (List Nat) (Process.mk 7 [1, 2, 3]) rfl⟩

/-- C10: after `n` calls in a process that started fresh, for every natural
`n`, exactly `n` identifiers have been issued, the counter equals
`n mod 2 ^ 64`, and the next call returns `n mod 2 ^ 64`. -/
theorem reachable_counter_eq_issued {σ : Type} (e : σ) (n : Nat) :
    (calls n (Process.start e)).1.length = n
    ∧ (calls n (Process.start e)).2.new_combine_identifier = n % 2 ^ 64
    ∧ nthCall n (Process.start e) = n % 2 ^ 64 := by
  refine ⟨calls_length n _, ?_, ?_⟩
  · rw [calls_counter n _ (start_wellFormed e)]
    simp only [Process.start, Nat.zero_add]
  · rw [nthCall_eq n _ (start_wellFormed e)]
    simp only [Process.start, Nat.zero_add]

/-- C11: from every counter state and for all natural `i` and `j`, call number
`i` and call number `j` return the same value exactly when `i` and `j` are
congruent modulo `2 ^ 64`; so the value of call `i` comes back at call
`i + 2 ^ 64` and at no call `i + k` with `0 < k < 2 ^ 64`. -/
theorem calls_collide_iff_congruent {σ : Type} (p : Process σ) (hp : p.WellFormed)
    (i j : Nat) :
    (nthCall i p = nthCall j p ↔ i % 2 ^ 64 = j % 2 ^ 64)
    ∧ nthCall (i + 2 ^ 64) p = nthCall i p
    ∧ ∀ k : Nat, 0 < k → k < 2 ^ 64 → nthCall (i + k) p ≠ nthCall i p := by
  refine ⟨?_, ?_, ?_⟩
  · rw [nthCall_eq i p hp, nthCall_eq j p hp]
    omega
  · rw [nthCall_eq _ p hp, nthCall_eq i p hp]
    omega
  · intro k hk0 hk
    rw [nthCall_eq _ p hp, nthCall_eq i p hp]
    omega

theorem calls_collide_iff_congruent_witness :
    (Process.mk (2 ^ 64 - 2) ()).WellFormed
    ∧ (nthCall 3 (Process.mk (2 ^ 64 - 2) ()) = nthCall (3 + 2 ^ 64) (Process.mk (2 ^ 64 - 2) ())
        ↔ 3 % 2 ^ 64 = (3 + 2 ^ 64) % 2 ^ 64)
    ∧ 0 < 5 ∧ 5 < 2 ^ 64
    ∧ nthCall (3 + 5) (Process.mk (2 ^ 64 - 2) ()) ≠ nthCall 3 (Process.mk (2 ^ 64 - 2) ()) :=
  ⟨by decide,
    (calls_collide_iff_congruent (Process.mk (2 ^ 64 - 2) ()) (by decide) 3 (3 + 2 ^ 64)).1,
    by decide, by decide,
    (calls_collide_iff_congruent (Process.mk (2 ^ 64 - 2) ()) (by decide) 3 3).2.2 5
      (by decide) (by decide)⟩

/-- C12: from every counter state `c` and for every `k ≤ 2 ^ 64`, the values
returned by `k` successive calls are `k` distinct values and, as a set, exactly
`(c + i) mod 2 ^ 64` for `0 ≤ i < k`: none of these is skipped and nothing
else is returned. -/
theorem successive_calls_gap_free {σ : Type} (p : Process σ) (hp : p.WellFormed)
    (k : Nat) (hk : k ≤ 2 ^ 64) :
    (∀ v : Nat, v ∈ (calls k p).1 ↔ ∃ i : Nat, i < k ∧ v = (p.new_combine_identifier + i) % 2 ^ 64)
    ∧ (calls k p).1.toFinset.card = k := by
  constructor
  · intro v
    rw [calls_values k p hp, List.mem_map]
    constructor
    · rintro ⟨i, hi, rfl⟩
      exact ⟨i, List.mem_range.mp hi, rfl⟩
    · rintro ⟨i, hi, rfl⟩
      exact ⟨i, List.mem_range.mpr hi, rfl⟩
  · have hnd : (calls k p).1.Nodup := by
      rw [calls_values k p hp]
      exact offsets_nodup _ _ hk
    rw [List.toFinset_card_of_nodup hnd, calls_length]

theorem successive_calls_gap_free_witness :
    (Process.mk (2 ^ 64 - 1) ()).WellFormed ∧ 3 ≤ 2 ^ 64
    ∧ (∀ v : Nat, v ∈ (calls 3 (Process.mk (2 ^ 64 - 1) ())).1
        ↔ ∃ i : Nat, i < 3 ∧ v = ((Process.mk (2 ^ 64 - 1) ()).new_combine_identifier + i) % 2 ^ 64)
    ∧ (calls 3 (Process.mk (2 ^ 64 - 1) ())).1.toFinset.card = 3 :=
  ⟨by decide, by decide,
    successive_calls_gap_free (Process.mk (2 ^ 64 - 1) ()) (by decide) 3 (by decide)⟩

end PublisherKit
